import Mathlib

/-!
Verification development for `convert.py` of the `stupid_webm_fuckery`
repository: a script that renders a video (or a synthetic transparent clip)
whose resolution changes over time, driven by keyframe instructions.

The Python source is shallowly embedded below: dictionaries become
insertion-ordered association lists, floats become rationals, `sys.exit`
and uncaught Python exceptions become an explicit error type, and the
external `ffmpeg` invocations are represented by the exact command strings
the script builds.
-/

/-- Run-ending events of the script: `exitMsg` models `sys.exit(msg)` (an
explicit diagnostic), the other constructors model uncaught Python
exceptions (`KeyError`, `TypeError`, `ValueError`, `KeyboardInterrupt`). -/
inductive PyErr where
  | exitMsg (msg : String)
  | keyError (key : String)
  | typeError
  | valueError
  | keyboardInterrupt
deriving DecidableEq

deriving instance DecidableEq for Except

/-!
### Kernel-computable rational arithmetic

The standard `ℚ` field operations are `@[irreducible]` in this toolchain,
which blocks `decide`-style evaluation of concrete runs.  The embedding
therefore uses the wrappers below, built from `Rat.divInt` on raw
numerators/denominators; the lemmas `qadd_eq`, `qsub_eq`, `qmul_eq`,
`qdiv_eq` and `qlt_iff` identify them with `+`, `-`, `*`, `/` and `<`,
so every theorem can be read in ordinary field language.
-/

def qadd (a b : ℚ) : ℚ := Rat.divInt (a.num * b.den + b.num * a.den) (a.den * b.den)

def qsub (a b : ℚ) : ℚ := Rat.divInt (a.num * b.den - b.num * a.den) (a.den * b.den)

def qmul (a b : ℚ) : ℚ := Rat.divInt (a.num * b.num) (a.den * b.den)

def qdiv (a b : ℚ) : ℚ := Rat.divInt (a.num * b.den) (a.den * b.num)

/-- `qlt a b` is `a < b`, by cross-multiplying numerators. -/
def qlt (a b : ℚ) : Prop := a.num * b.den < b.num * a.den

instance (a b : ℚ) : Decidable (qlt a b) := by unfold qlt; infer_instance

/-- `qle a b` is `a ≤ b`, by cross-multiplying numerators. -/
def qle (a b : ℚ) : Prop := a.num * b.den ≤ b.num * a.den

instance (a b : ℚ) : Decidable (qle a b) := by unfold qle; infer_instance

/-- Python `int(x)` on a float/rational: truncation toward zero
(`Int.tdiv` is the truncating division, and `q.den > 0`). -/
def truncQ (q : ℚ) : ℤ := q.num.tdiv q.den

/-- Floor of a rational, by floor division (`Int.fdiv`) of the numerator
by the denominator. -/
def qfloor (q : ℚ) : ℤ := q.num.fdiv q.den

/-- Ceiling of a rational: `-floor(-q)`. -/
def qceil (q : ℚ) : ℤ := -((-q.num).fdiv q.den)

/-- Python `a % b` on floats: `a - b * floor(a / b)` (used with `b > 0`). -/
def pymod (a b : ℚ) : ℚ := qsub a (qmul b ((qfloor (qdiv a b) : ℤ) : ℚ))

/-- Python `max(a, b)` on two integers (kernel-computable form;
`pymax_eq_max` below identifies it with `max`). -/
def pymax (a b : ℤ) : ℤ := if a ≤ b then b else a

theorem pymax_eq_max (a b : ℤ) : pymax a b = max a b := by
  simp [pymax, max_def]

theorem qden_cast_ne (q : ℚ) : ((q.den : ℚ)) ≠ 0 := by
  exact_mod_cast q.den_nz

theorem num_eq_mul_den (a : ℚ) : (a.num : ℚ) = a * a.den := by
  nth_rewrite 2 [← Rat.num_div_den a]
  rw [div_mul_cancel₀ _ (qden_cast_ne a)]

theorem qadd_eq (a b : ℚ) : qadd a b = a + b := by
  rw [qadd, Rat.divInt_eq_div]
  push_cast
  rw [div_eq_iff (mul_ne_zero (qden_cast_ne a) (qden_cast_ne b))]
  rw [num_eq_mul_den a, num_eq_mul_den b]
  ring

theorem qsub_eq (a b : ℚ) : qsub a b = a - b := by
  rw [qsub, Rat.divInt_eq_div]
  push_cast
  rw [div_eq_iff (mul_ne_zero (qden_cast_ne a) (qden_cast_ne b))]
  rw [num_eq_mul_den a, num_eq_mul_den b]
  ring

theorem qmul_eq (a b : ℚ) : qmul a b = a * b := by
  rw [qmul, Rat.divInt_eq_div]
  push_cast
  rw [div_eq_iff (mul_ne_zero (qden_cast_ne a) (qden_cast_ne b))]
  rw [num_eq_mul_den a, num_eq_mul_den b]
  ring

theorem qdiv_eq (a b : ℚ) : qdiv a b = a / b := by
  rcases eq_or_ne b 0 with hb | hb
  · subst hb
    simp [qdiv, Rat.divInt_eq_div]
  · have hbn : (b.num : ℚ) ≠ 0 := by
      exact_mod_cast Rat.num_ne_zero.2 hb
    rw [qdiv, Rat.divInt_eq_div]
    push_cast
    rw [div_eq_div_iff (mul_ne_zero (qden_cast_ne a) hbn) hb]
    rw [num_eq_mul_den a, num_eq_mul_den b]
    ring

theorem qlt_iff (a b : ℚ) : qlt a b ↔ a < b := by
  rw [qlt]
  have hd : (0 : ℚ) < a.den := by exact_mod_cast Nat.pos_of_ne_zero a.den_nz
  have hd' : (0 : ℚ) < b.den := by exact_mod_cast Nat.pos_of_ne_zero b.den_nz
  rw [show (a < b) ↔ ((a.num : ℚ) / a.den < (b.num : ℚ) / b.den) by
      rw [Rat.num_div_den, Rat.num_div_den]]
  rw [div_lt_div_iff₀ hd hd']
  exact_mod_cast Iff.rfl

theorem qle_iff (a b : ℚ) : qle a b ↔ a ≤ b := by
  rw [qle]
  have hd : (0 : ℚ) < a.den := by exact_mod_cast Nat.pos_of_ne_zero a.den_nz
  have hd' : (0 : ℚ) < b.den := by exact_mod_cast Nat.pos_of_ne_zero b.den_nz
  rw [show (a ≤ b) ↔ ((a.num : ℚ) / a.den ≤ (b.num : ℚ) / b.den) by
      rw [Rat.num_div_den, Rat.num_div_den]]
  rw [div_le_div_iff₀ hd hd']
  exact_mod_cast Iff.rfl

/-- One resolved interpolation-table entry: `(time, width, height)`.
`readInstructions` stores the table as an insertion-ordered mapping
`time ↦ [width, height]`; iterating `info.items()` yields this list. -/
abbrev Kf := ℚ × ℤ × ℤ

/-- One iteration of the bracket-scanning loop of `getInterpolatedSize`
(source lines 170-178), acting on the state `(prev, next)`:

    for t, kf in info.items():
        if prev is None: prev = [t, kf]; continue
        if next is None: next = [t, kf]
        if time > next[0]: prev = [t, kf]; next = None
-/
def scanStep (time : ℚ) (st : Option Kf × Option Kf) (e : Kf) :
    Option Kf × Option Kf :=
  match st with
  | (none, nx) => (some e, nx)
  | (some p, none) => if qlt e.1 time then (some e, none) else (some p, some e)
  | (some p, some nx) => if qlt nx.1 time then (some e, none) else (some p, some nx)

/-- `getInterpolatedSize(info, time)` (source lines 168-183): scan for a
bracketing pair, `sys.exit("Could not interpolate")` when no `next`
survives, otherwise linearly interpolate each dimension, truncate toward
zero (`int`) and clamp to a minimum of 1 (`max(1, ...)`). -/
def getInterpolatedSize (info : List Kf) (time : ℚ) : Except PyErr (ℤ × ℤ) :=
  match info.foldl (scanStep time) (none, none) with
  | (some p, some nx) =>
    let mult : ℚ := qdiv (qsub time p.1) (qsub nx.1 p.1)
    let dw : ℤ := nx.2.1 - p.2.1
    let dh : ℤ := nx.2.2 - p.2.2
    .ok (pymax 1 (truncQ (qadd (p.2.1 : ℚ) (qmul mult (dw : ℚ)))),
         pymax 1 (truncQ (qadd (p.2.2 : ℚ) (qmul mult (dh : ℚ)))))
  | _ => .error (.exitMsg "Could not interpolate")

/-- The sequence of per-frame target sizes queried by
`makeTransparentImages` (source line 73): frame `i` is sampled at
`(i * (1/fps)) % duration`.  The first failing query aborts the run. -/
def planSizes (info : List Kf) (count : ℕ) (fps duration : ℚ) :
    Except PyErr (List (ℤ × ℤ)) :=
  (List.range count).mapM
    (fun (i : ℕ) =>
      getInterpolatedSize info (pymod (qmul (i : ℚ) (qdiv 1 fps)) duration))

/-- The mutable state of the dedup loop in `makeTransparentImages`:
`imageDict` (size ↦ canonical frame index), `index` (next fresh canonical
index) and `indexList` (one canonical index per plan position). -/
structure DState where
  dict : List ((ℤ × ℤ) × ℕ)
  nextIdx : ℕ
  refs : List ℕ
deriving DecidableEq

def dedupInit : DState := ⟨[], 0, []⟩

/-- One iteration of the dedup loop (source lines 74-82): an unseen size
allocates a fresh canonical index and materializes one image; a seen size
reuses the recorded index. -/
def dedupStep (st : DState) (size : ℤ × ℤ) : DState :=
  match List.lookup size st.dict with
  | some j => ⟨st.dict, st.nextIdx, st.refs ++ [j]⟩
  | none => ⟨st.dict ++ [(size, st.nextIdx)], st.nextIdx + 1, st.refs ++ [st.nextIdx]⟩

/-- The dedup loop run over a whole size sequence. -/
def dedupFold (sizes : List (ℤ × ℤ)) : DState := sizes.foldl dedupStep dedupInit

/-- `makeTransparentImages` (source lines 68-88): interpolate a size for
each frame index, dedup, then return `max(indexList)` (which raises
`ValueError` on an empty list).  The reference list is also returned so
that the concat-list contents can be stated. -/
def makeTransparentImages (info : List Kf) (count : ℕ) (fps duration : ℚ) :
    Except PyErr (List ℕ × ℕ) := do
  let st ← (List.range count).foldlM
    (fun st (i : ℕ) => do
      let size ← getInterpolatedSize info (pymod (qmul (i : ℚ) (qdiv 1 fps)) duration)
      pure (dedupStep st size))
    dedupInit
  match st.refs.max? with
  | some m => pure (st.refs, m)
  | none => throw .valueError

/-- The two-keyframe example table `{0: (100,100), 10: (200,50)}`. -/
def exTable : List Kf := [((0 : ℚ), 100, 100), ((10 : ℚ), 200, 50)]

/-- The per-frame sizes the example table yields at `duration=10, fps=1`. -/
def exPlan : List (ℤ × ℤ) :=
  [(100, 100), (110, 95), (120, 90), (130, 85), (140, 80),
   (150, 75), (160, 70), (170, 65), (180, 60), (190, 55)]

/-- A constant 100×100 table over a duration of 2 seconds. -/
def constTable : List Kf := [((0 : ℚ), 100, 100), ((2 : ℚ), 100, 100)]

/-!
### Scan characterization for `getInterpolatedSize`
-/

/-- The table invariant: resolved keyframe times are strictly increasing. -/
def TSorted (info : List Kf) : Prop := info.Pairwise (fun a b => a.1 < b.1)

theorem scan_locked (t : ℚ) (p n : Kf) (h : ¬ n.1 < t) (es : List Kf) :
    es.foldl (scanStep t) (some p, some n) = (some p, some n) := by
  induction es with
  | nil => rfl
  | cons e es ih =>
    simp only [List.foldl_cons, scanStep]
    rw [if_neg (by rw [qlt_iff]; exact h)]
    exact ih

theorem scan_advance (t : ℚ) (es : List Kf) :
    ∀ p : Kf, (∀ e ∈ es, e.1 < t) →
      es.foldl (scanStep t) (some p, none) = (some (es.getLastD p), none) := by
  induction es with
  | nil => intro p _; rfl
  | cons e es ih =>
    intro p h
    simp only [List.foldl_cons, scanStep]
    rw [if_pos (by rw [qlt_iff]; exact h e (List.mem_cons_self _ _))]
    rw [ih e (fun x hx => h x (List.mem_cons_of_mem _ hx))]
    rw [List.getLastD_cons]

theorem scan_find (t : ℚ) (us : List Kf) (n : Kf) (vs : List Kf) (p : Kf)
    (hus : ∀ e ∈ us, e.1 < t) (hn : ¬ n.1 < t) :
    (us ++ n :: vs).foldl (scanStep t) (some p, none) =
      (some (us.getLastD p), some n) := by
  rw [List.foldl_append, scan_advance t us p hus]
  simp only [List.foldl_cons, scanStep]
  rw [if_neg (by rw [qlt_iff]; exact hn)]
  exact scan_locked t _ n hn vs

/-- Unfolding the first loop iteration: the head becomes `prev`. -/
theorem scan_head (t : ℚ) (e : Kf) (rest : List Kf) :
    (e :: rest).foldl (scanStep t) (none, none) =
      rest.foldl (scanStep t) (some e, none) := by
  rfl

/-- When the scan ends in a `(prev, next)` pair, `getInterpolatedSize`
returns the clamped, truncated linear blend of the pair. -/
theorem getInterp_of_state (info : List Kf) (t : ℚ) (p n : Kf)
    (hfold : info.foldl (scanStep t) (none, none) = (some p, some n)) :
    getInterpolatedSize info t =
      .ok (pymax 1 (truncQ ((p.2.1 : ℚ) +
              (t - p.1) / (n.1 - p.1) * ((n.2.1 : ℚ) - (p.2.1 : ℚ)))),
           pymax 1 (truncQ ((p.2.2 : ℚ) +
              (t - p.1) / (n.1 - p.1) * ((n.2.2 : ℚ) - (p.2.2 : ℚ))))) := by
  rw [getInterpolatedSize, hfold]
  simp only [qadd_eq, qmul_eq, qdiv_eq, qsub_eq]
  push_cast
  ring_nf

/-- When the scan ends without a surviving `next`, the query fails. -/
theorem getInterp_of_no_next (info : List Kf) (t : ℚ) (p : Option Kf)
    (hfold : info.foldl (scanStep t) (none, none) = (p, none)) :
    getInterpolatedSize info t = .error (.exitMsg "Could not interpolate") := by
  rw [getInterpolatedSize, hfold]
  cases p <;> rfl

theorem truncQ_intCast (z : ℤ) : truncQ ((z : ℚ)) = z := by
  rw [truncQ, Rat.num_intCast, Rat.den_intCast, Nat.cast_one]
  exact Int.tdiv_one z

theorem tsorted_le_last (info : List Kf) (hs : TSorted info) (last : Kf)
    (hl : info.getLast? = some last) : ∀ e ∈ info, e = last ∨ e.1 < last.1 := by
  intro e he
  have hdecomp : info.dropLast ++ [last] = info := List.dropLast_append_getLast? last hl
  rw [← hdecomp] at he hs
  rcases List.mem_append.1 he with h | h
  · exact Or.inr ((List.pairwise_append.1 hs).2.2 e h last (List.mem_singleton_self _))
  · exact Or.inl (List.mem_singleton.1 h)

/-- C1: for a strictly sorted table and a query time `t` bracketed by the
adjacent pair `(p, n)` (with `p.1 ≤ t < n.1`), `sizeAt(t)` returns, per
dimension, `prev + ((t - prev.t)/(next.t - prev.t)) * (next - prev)`,
truncated toward zero and clamped to a minimum of 1; moreover the
two-keyframe example table at `duration=10, fps=1` yields a 10-entry plan
whose entry at index 5 is `(150, 75)`. -/
theorem C1_bracket_interpolation
    (pre post : List Kf) (p n : Kf) (t : ℚ)
    (hs : TSorted (pre ++ p :: n :: post))
    (hp : p.1 ≤ t) (hn : t < n.1) :
    getInterpolatedSize (pre ++ p :: n :: post) t =
      .ok (pymax 1 (truncQ ((p.2.1 : ℚ) +
              (t - p.1) / (n.1 - p.1) * ((n.2.1 : ℚ) - (p.2.1 : ℚ)))),
           pymax 1 (truncQ ((p.2.2 : ℚ) +
              (t - p.1) / (n.1 - p.1) * ((n.2.2 : ℚ) - (p.2.2 : ℚ)))))
    ∧ planSizes exTable 10 1 10 = .ok exPlan
    ∧ exPlan.length = 10
    ∧ exPlan.get? 5 = some (150, 75) := by
  refine ⟨?_, by decide, by decide, by decide⟩
  have hsplit := List.pairwise_append.1 hs
  have hpn : p.1 < n.1 :=
    (List.pairwise_cons.1 hsplit.2.1).1 n (List.mem_cons_self _ _)
  have hpre : ∀ e ∈ pre, e.1 < p.1 :=
    fun e he => hsplit.2.2 e he p (List.mem_cons_self _ _)
  have hnnlt : ¬ n.1 < t := not_lt.2 (le_of_lt hn)
  cases pre with
  | nil =>
    have hfold : (p :: n :: post).foldl (scanStep t) (none, none) = (some p, some n) := by
      rw [scan_head]
      exact scan_find t [] n post p (fun e he => absurd he (List.not_mem_nil e)) hnnlt
    exact getInterp_of_state _ t p n hfold
  | cons h0 pre' =>
    rcases lt_or_eq_of_le hp with hp' | hp'
    · have hfold : ((h0 :: pre') ++ p :: n :: post).foldl (scanStep t) (none, none)
          = (some p, some n) := by
        have hsh : (h0 :: pre') ++ p :: n :: post = h0 :: ((pre' ++ [p]) ++ n :: post) := by
          simp
        rw [hsh, scan_head]
        have := scan_find t (pre' ++ [p]) n post h0 ?_ hnnlt
        · rw [this, List.getLastD_concat]
        · intro e he
          rcases List.mem_append.1 he with h | h
          · exact lt_trans (hpre e (List.mem_cons_of_mem _ h)) hp'
          · rw [List.mem_singleton] at h
            subst h
            exact hp'
      exact getInterp_of_state _ t p n hfold
    · have hfold : ((h0 :: pre') ++ p :: n :: post).foldl (scanStep t) (none, none)
          = (some (pre'.getLastD h0), some p) := by
        have hsh : (h0 :: pre') ++ p :: n :: post = h0 :: (pre' ++ p :: (n :: post)) := by
          simp
        rw [hsh, scan_head]
        exact scan_find t pre' p (n :: post) h0
          (fun e he => hp' ▸ hpre e (List.mem_cons_of_mem _ he))
          (by rw [← hp']; exact lt_irrefl _)
      have hprev : (pre'.getLastD h0).1 < p.1 := hpre _ (List.getLastD_mem_cons _ _)
      rw [getInterp_of_state _ t _ p hfold]
      have e1 : ∀ pv nv : ℚ,
          pv + (t - (pre'.getLastD h0).1) / (p.1 - (pre'.getLastD h0).1) * (nv - pv) = nv := by
        intro pv nv
        rw [← hp', div_self (sub_ne_zero.2 (ne_of_gt hprev))]
        ring
      have e2 : ∀ pv nv : ℚ, pv + (t - p.1) / (n.1 - p.1) * (nv - pv) = pv := by
        intro pv nv
        rw [← hp']
        simp
      rw [e1, e1, e2, e2]

/-- C2 (counterexample): at `t` exactly equal to the last keyframe time the
query does not fail; it returns the last keyframe size. -/
theorem C2_counterexample :
    getInterpolatedSize exTable 10 = .ok (200, 50) ∧
    getInterpolatedSize exTable 10 ≠ .error (.exitMsg "Could not interpolate") := by
  constructor
  · decide
  · decide

/-- C2 (amended): `sizeAt(t)` fails with the `InterpolationOutOfRange` exit
for every table with fewer than two entries and for every `t` strictly
beyond the last keyframe time; at `t` exactly equal to the last keyframe
time it instead returns the last keyframe size (clamped to a minimum of 1). -/
theorem C2_out_of_range (info : List Kf) (t : ℚ) (hs : TSorted info) :
    (info.length < 2 →
        getInterpolatedSize info t = .error (.exitMsg "Could not interpolate")) ∧
    (∀ last, info.getLast? = some last → last.1 < t →
        getInterpolatedSize info t = .error (.exitMsg "Could not interpolate")) ∧
    (∀ last, info.getLast? = some last → 2 ≤ info.length → t = last.1 →
        getInterpolatedSize info t = .ok (pymax 1 last.2.1, pymax 1 last.2.2)) := by
  refine ⟨?_, ?_, ?_⟩
  · intro hlen
    match info with
    | [] => rfl
    | [e] =>
      exact getInterp_of_no_next [e] t (some e) (by rw [scan_head]; rfl)
    | a :: b :: rest =>
      simp at hlen
      omega
  · intro last hl hlt
    have hall : ∀ e ∈ info, e.1 < t := by
      intro e he
      rcases tsorted_le_last info hs last hl e he with h | h
      · rw [h]; exact hlt
      · exact lt_trans h hlt
    match info, hl with
    | e0 :: rest, hl =>
      refine getInterp_of_no_next _ t (some (rest.getLastD e0)) ?_
      rw [scan_head]
      exact scan_advance t rest e0
        (fun e he => hall e (List.mem_cons_of_mem _ he))
  · intro last hl hlen ht
    have hdecomp : info.dropLast ++ [last] = info := List.dropLast_append_getLast? last hl
    match info, hl, hlen, hdecomp with
    | e0 :: rest, hl, hlen, hdecomp =>
      have hus : (e0 :: rest).dropLast = e0 :: rest.dropLast := by
        cases rest with
        | nil => simp at hlen
        | cons b bs => rfl
      have hinfo : e0 :: rest = e0 :: (rest.dropLast ++ [last]) := by
        nth_rewrite 1 [← hdecomp]
        rw [hus, List.cons_append]
      have hpre : ∀ e ∈ (e0 :: rest).dropLast, e.1 < last.1 := by
        intro e he
        have hs' := hs
        rw [← hdecomp] at hs'
        exact (List.pairwise_append.1 hs').2.2 e he last (List.mem_singleton_self _)
      have hfold : (e0 :: rest).foldl (scanStep t) (none, none)
          = (some (rest.dropLast.getLastD e0), some last) := by
        nth_rewrite 1 [hinfo]
        rw [scan_head]
        have := scan_find t rest.dropLast last [] e0 ?_ ?_
        · exact this
        · intro e he
          rw [ht]
          exact hpre e (hus ▸ List.mem_cons_of_mem _ he)
        · rw [ht]
          exact lt_irrefl _
      have hprev : (rest.dropLast.getLastD e0).1 < last.1 := by
        refine hpre _ ?_
        rw [hus]
        exact List.getLastD_mem_cons _ _
      rw [getInterp_of_state _ t _ last hfold]
      have e1 : ∀ pv nv : ℚ,
          pv + (t - (rest.dropLast.getLastD e0).1) /
            (last.1 - (rest.dropLast.getLastD e0).1) * (nv - pv) = nv := by
        intro pv nv
        rw [ht, div_self (sub_ne_zero.2 (ne_of_gt hprev))]
        ring
      rw [e1, e1, truncQ_intCast, truncQ_intCast]

/-- C8 (amended): a one-entry table makes every `sizeAt` query fail with
the `InterpolationOutOfRange` exit, so any plan with at least one frame
fails on its first query and no plan is produced; with a planned frame
count of 0 the loop instead produces an empty (zero-length) plan without
any error. -/
theorem C8_single_keyframe (info : List Kf) :
    (info.length = 1 →
        ∀ t, getInterpolatedSize info t = .error (.exitMsg "Could not interpolate")) ∧
    (info.length = 1 → ∀ count fps duration, 0 < count →
        planSizes info count fps duration = .error (.exitMsg "Could not interpolate")) ∧
    (∀ fps duration, planSizes info 0 fps duration = .ok []) := by
  have h1 : info.length = 1 →
      ∀ t, getInterpolatedSize info t = .error (.exitMsg "Could not interpolate") := by
    intro hlen t
    match info, hlen with
    | [e], _ =>
      exact getInterp_of_no_next [e] t (some e) (by rw [scan_head]; rfl)
  refine ⟨h1, ?_, ?_⟩
  · intro hlen count fps duration hcount
    match count, hcount with
    | k + 1, _ =>
      rw [planSizes, List.range_succ_eq_map, List.mapM_cons]
      rw [h1 hlen _]
      rfl
  · intro fps duration
    rfl

theorem C1_bracket_interpolation_witness :
    getInterpolatedSize exTable 5 = .ok (150, 75) := by
  have h := C1_bracket_interpolation [] [] ((0 : ℚ), 100, 100) ((10 : ℚ), 200, 50) 5
    (by norm_num [TSorted, List.pairwise_cons])
    (by norm_num) (by norm_num)
  rw [show exTable = [] ++ ((0 : ℚ), 100, 100) :: ((10 : ℚ), 200, 50) :: [] from rfl]
  rw [h.1]
  norm_num [truncQ, pymax, Rat.num_ofNat, Rat.den_ofNat]

theorem C2_out_of_range_witness :
    getInterpolatedSize exTable 11 = .error (.exitMsg "Could not interpolate") ∧
    getInterpolatedSize exTable 10 = .ok (pymax 1 200, pymax 1 50) ∧
    getInterpolatedSize [((0 : ℚ), 100, 100)] 0 =
      .error (.exitMsg "Could not interpolate") := by
  have hsort : TSorted exTable := by norm_num [exTable, TSorted, List.pairwise_cons]
  have h1 := (C2_out_of_range exTable 11 hsort).2.1 ((10 : ℚ), 200, 50) (by decide)
    (by norm_num)
  have h2 := (C2_out_of_range exTable 10 hsort).2.2 ((10 : ℚ), 200, 50) (by decide)
    (by decide) (by norm_num)
  have h3 := (C2_out_of_range [((0 : ℚ), 100, 100)] 0 (by simp [TSorted])).1 (by decide)
  exact ⟨h1, h2, h3⟩

/-- C8 (counterexample): with a single-keyframe table and a planned frame
count of 0 (e.g. transparent mode with `duration=0`), the loop produces a
zero-length plan with no explicit error, and the run then dies with an
uncaught `ValueError` from `max([])` — not with `InvalidInstructions` or
`InterpolationOutOfRange`. -/
theorem C8_counterexample :
    planSizes [((0 : ℚ), 100, 100)] 0 1 0 = .ok [] ∧
    makeTransparentImages [((0 : ℚ), 100, 100)] 0 1 0 = .error .valueError := by
  exact ⟨rfl, rfl⟩

theorem C8_single_keyframe_witness :
    getInterpolatedSize [((0 : ℚ), 100, 100)] 5 =
      .error (.exitMsg "Could not interpolate") ∧
    planSizes [((0 : ℚ), 100, 100)] 3 1 1 =
      .error (.exitMsg "Could not interpolate") ∧
    planSizes [((0 : ℚ), 100, 100)] 0 1 1 = .ok [] := by
  have h := C8_single_keyframe [((0 : ℚ), 100, 100)]
  exact ⟨h.1 rfl 5, h.2.1 rfl 3 1 1 (by norm_num), h.2.2 1 1⟩

/-!
### Dedup cache invariants (`makeTransparentImages`)
-/

/-- Resolve a canonical index back to its size through the final
`imageDict`: the first (hence unique) entry recorded with index `j`. -/
def resolveIdx (dict : List ((ℤ × ℤ) × ℕ)) (j : ℕ) : Option (ℤ × ℤ) :=
  (dict.find? (fun p => p.2 == j)).map Prod.fst

theorem lookup_mem (dict : List ((ℤ × ℤ) × ℕ)) {s : ℤ × ℤ} {j : ℕ}
    (h : List.lookup s dict = some j) : (s, j) ∈ dict := by
  obtain ⟨l₁, l₂, rfl, -⟩ := List.lookup_eq_some_iff.1 h
  exact List.mem_append_right _ (List.mem_cons_self _ _)

theorem lookup_none_keys (dict : List ((ℤ × ℤ) × ℕ)) {s : ℤ × ℤ}
    (h : List.lookup s dict = none) : s ∉ dict.map Prod.fst := by
  rw [List.lookup_eq_none_iff] at h
  intro hmem
  obtain ⟨p, hp, rfl⟩ := List.mem_map.1 hmem
  have := h p hp
  simp at this

theorem find_by_idx (j : ℕ) :
    ∀ (dict : List ((ℤ × ℤ) × ℕ)) (a : ℕ),
      dict.map Prod.snd = List.range' a dict.length →
      ∀ s, (s, j) ∈ dict → dict.find? (fun p => p.2 == j) = some (s, j) := by
  intro dict
  induction dict with
  | nil =>
    intro a _ s hs
    simp at hs
  | cons hd tl ih =>
    intro a hk s hs
    rw [List.map_cons, List.length_cons, List.range'_succ] at hk
    have h1 : hd.2 = a := (List.cons_eq_cons.1 hk).1
    have h2 : tl.map Prod.snd = List.range' (a + 1) tl.length := (List.cons_eq_cons.1 hk).2
    by_cases hj : hd.2 = j
    · rw [List.find?_cons_of_pos _ (by simp [hj])]
      rcases List.mem_cons.1 hs with heq | hmem
      · rw [heq]
      · exfalso
        have : j ∈ tl.map Prod.snd := List.mem_map.2 ⟨(s, j), hmem, rfl⟩
        rw [h2] at this
        have hb := List.mem_range'_1.1 this
        omega
    · rw [List.find?_cons_of_neg _ (by simp [hj])]
      rcases List.mem_cons.1 hs with heq | hmem
      · exact absurd (congrArg Prod.snd heq).symm hj
      · exact ih (a + 1) h2 s hmem

theorem resolveIdx_of_mem (dict : List ((ℤ × ℤ) × ℕ)) (s : ℤ × ℤ) (j : ℕ)
    (hk : dict.map Prod.snd = List.range dict.length) (hs : (s, j) ∈ dict) :
    resolveIdx dict j = some s := by
  rw [resolveIdx, find_by_idx j dict 0 (by rw [hk, List.range_eq_range']) s hs]
  rfl

/-- The dedup-loop invariant, by induction over the remaining sizes: the
dictionary only grows at the end, recorded indices are exactly the entry
positions, each emitted reference resolves back to its size, keys stay
distinct, and every allocated index is referenced. -/
theorem dedup_go (sizes : List (ℤ × ℤ)) :
    ∀ (dict : List ((ℤ × ℤ) × ℕ)) (refs : List ℕ),
      dict.map Prod.snd = List.range dict.length →
      ∃ ext r2,
        sizes.foldl dedupStep ⟨dict, dict.length, refs⟩ =
          ⟨dict ++ ext, (dict ++ ext).length, refs ++ r2⟩ ∧
        (dict ++ ext).map Prod.snd = List.range (dict ++ ext).length ∧
        r2.map (resolveIdx (dict ++ ext)) = sizes.map some ∧
        (∀ x, x ∈ (dict ++ ext).map Prod.fst ↔ x ∈ dict.map Prod.fst ∨ x ∈ sizes) ∧
        ((dict.map Prod.fst).Nodup → ((dict ++ ext).map Prod.fst).Nodup) ∧
        (∀ j ∈ r2, j < (dict ++ ext).length) ∧
        (∀ j, dict.length ≤ j → j < (dict ++ ext).length → j ∈ r2) := by
  induction sizes with
  | nil =>
    intro dict refs hk
    refine ⟨[], [], by simp, by simpa using hk, rfl, by simp, by simp, by simp, ?_⟩
    intro j h1 h2
    simp at h2
    omega
  | cons s rest ih =>
    intro dict refs hk
    rw [List.foldl_cons]
    cases hl : List.lookup s dict with
    | some j =>
      have hstep : dedupStep ⟨dict, dict.length, refs⟩ s = ⟨dict, dict.length, refs ++ [j]⟩ := by
        simp [dedupStep, hl]
      rw [hstep]
      obtain ⟨ext, r2, hfold, hkeys, hres, hiff, hnd, hbound, halloc⟩ := ih dict (refs ++ [j]) hk
      have hmem : (s, j) ∈ dict := lookup_mem dict hl
      refine ⟨ext, j :: r2, ?_, hkeys, ?_, ?_, hnd, ?_, ?_⟩
      · rw [hfold]
        simp
      · rw [List.map_cons, hres, List.map_cons,
          resolveIdx_of_mem (dict ++ ext) s j hkeys (List.mem_append_left _ hmem)]
      · intro x
        rw [hiff x, List.mem_cons]
        constructor
        · rintro (h | h)
          · exact Or.inl h
          · exact Or.inr (Or.inr h)
        · rintro (h | rfl | h)
          · exact Or.inl h
          · exact Or.inl (List.mem_map.2 ⟨(x, j), hmem, rfl⟩)
          · exact Or.inr h
      · intro x hx
        rcases List.mem_cons.1 hx with rfl | hx
        · have hj : x ∈ dict.map Prod.snd := List.mem_map.2 ⟨(s, x), hmem, rfl⟩
          rw [hk] at hj
          have := List.mem_range.1 hj
          have hle : dict.length ≤ (dict ++ ext).length := by simp
          omega
        · exact hbound x hx
      · intro j2 h1 h2
        exact List.mem_cons_of_mem _ (halloc j2 h1 h2)
    | none =>
      have hstep : dedupStep ⟨dict, dict.length, refs⟩ s =
          ⟨dict ++ [(s, dict.length)], dict.length + 1, refs ++ [dict.length]⟩ := by
        simp [dedupStep, hl]
      rw [hstep]
      have hk' : (dict ++ [(s, dict.length)]).map Prod.snd =
          List.range (dict ++ [(s, dict.length)]).length := by
        rw [List.map_append, hk, List.length_append]
        simp [List.range_succ]
      have hlen1 : (dict ++ [(s, dict.length)]).length = dict.length + 1 := by simp
      obtain ⟨ext, r2, hfold, hkeys, hres, hiff, hnd, hbound, halloc⟩ :=
        ih (dict ++ [(s, dict.length)]) (refs ++ [dict.length]) hk'
      have hassoc : (dict ++ [(s, dict.length)]) ++ ext = dict ++ ((s, dict.length) :: ext) := by
        simp
      refine ⟨(s, dict.length) :: ext, dict.length :: r2, ?_, ?_, ?_, ?_, ?_, ?_, ?_⟩
      · rw [← hlen1, hfold, hassoc]
        simp
      · rw [← hassoc]
        exact hkeys
      · rw [List.map_cons, ← hassoc, hres]
        rw [resolveIdx_of_mem ((dict ++ [(s, dict.length)]) ++ ext) s dict.length hkeys
          (List.mem_append_left _ (List.mem_append_right _ (List.mem_cons_self _ _)))]
        rfl
      · intro x
        rw [← hassoc, hiff x, List.map_append, List.mem_append]
        simp only [List.map_cons, List.map_nil, List.mem_singleton, List.mem_cons,
          List.not_mem_nil, or_false]
        tauto
      · intro hndd
        rw [← hassoc]
        refine hnd ?_
        rw [List.map_append]
        simp only [List.map_cons, List.map_nil]
        rw [List.nodup_append]
        refine ⟨hndd, List.nodup_singleton _, ?_⟩
        intro x hx
        rw [List.mem_singleton]
        intro hxe
        subst hxe
        exact lookup_none_keys dict hl hx
      · intro x hx
        rcases List.mem_cons.1 hx with rfl | hx
        · rw [← hassoc, List.length_append, hlen1]
          omega
        · rw [← hassoc]
          exact hbound x hx
      · intro j2 h1 h2
        by_cases hj2 : j2 = dict.length
        · rw [hj2]
          exact List.mem_cons_self _ _
        · refine List.mem_cons_of_mem _ (halloc j2 ?_ ?_)
          · rw [hlen1]
            omega
          · rw [hassoc]
            exact h2

/-- C3: processing the planned size sequence in index order, the dedup
cache allocates canonical indices `0, 1, 2, ...` exactly for first
occurrences (keys stay distinct and are exactly the sizes seen), the
reference list has the plan's length and resolves back to the plan's size
sequence in order, the loop's return value is the maximum canonical index
used, a sequence with a repeated value uses strictly fewer canonical
indices than plan positions, and the constant 100×100 example
(`duration=2, fps=2, loop=1`) allocates exactly one canonical index with
reference sequence `[0, 0, 0, 0]` and returns 0. -/
theorem C3_dedup_roundtrip (sizes : List (ℤ × ℤ)) :
    (dedupFold sizes).dict.map Prod.snd = List.range (dedupFold sizes).dict.length ∧
    (dedupFold sizes).nextIdx = (dedupFold sizes).dict.length ∧
    ((dedupFold sizes).dict.map Prod.fst).Nodup ∧
    (∀ x, x ∈ (dedupFold sizes).dict.map Prod.fst ↔ x ∈ sizes) ∧
    (dedupFold sizes).refs.length = sizes.length ∧
    (dedupFold sizes).refs.map (resolveIdx (dedupFold sizes).dict) = sizes.map some ∧
    (sizes ≠ [] →
      (dedupFold sizes).refs.max? = some ((dedupFold sizes).dict.length - 1)) ∧
    (¬ sizes.Nodup → (dedupFold sizes).dict.length < sizes.length) ∧
    makeTransparentImages constTable 4 2 2 = .ok ([0, 0, 0, 0], 0) := by
  obtain ⟨ext, r2, hfold, hkeys, hres, hiff, hnd, hbound, halloc⟩ :=
    dedup_go sizes [] [] rfl
  simp only [List.nil_append, List.length_nil] at hfold hkeys hres hiff hnd hbound halloc
  have hDF : dedupFold sizes = ⟨ext, ext.length, r2⟩ := hfold
  rw [hDF]
  dsimp only
  have hiff' : ∀ x, x ∈ ext.map Prod.fst ↔ x ∈ sizes := by
    intro x
    rw [hiff x]
    simp
  have hlen : r2.length = sizes.length := by
    have := congrArg List.length hres
    rwa [List.length_map, List.length_map] at this
  refine ⟨hkeys, rfl, hnd List.nodup_nil, hiff', hlen, hres, ?_, ?_, by decide⟩
  · intro hne
    have hlenpos : 0 < ext.length := by
      obtain ⟨s0, hs0⟩ := List.exists_mem_of_ne_nil sizes hne
      have hm : s0 ∈ ext.map Prod.fst := (hiff' s0).2 hs0
      have := List.length_pos.2 (List.ne_nil_of_mem hm)
      rw [List.length_map] at this
      exact this
    haveI : Std.Antisymm ((· : ℕ) ≤ ·) := ⟨fun h1 h2 => Nat.le_antisymm h1 h2⟩
    apply (List.max?_eq_some_iff (fun a => Nat.le_refl a) (fun a b => by omega)
      (fun a b c => by omega)).2
    refine ⟨halloc (ext.length - 1) (by omega) (by omega), ?_⟩
    intro b hb
    have := hbound b hb
    omega
  · intro hdup
    have hnodup : (ext.map Prod.fst).Nodup := hnd List.nodup_nil
    have hfin : (ext.map Prod.fst).toFinset = sizes.toFinset := by
      ext x
      rw [List.mem_toFinset, List.mem_toFinset]
      exact hiff' x
    have h1 : (ext.map Prod.fst).toFinset.card = (ext.map Prod.fst).length :=
      List.toFinset_card_of_nodup hnodup
    have h2 : sizes.toFinset.card = sizes.dedup.length := List.card_toFinset sizes
    have h3 : sizes.dedup.length ≤ sizes.length := (List.dedup_sublist sizes).length_le
    have h4 : sizes.dedup.length ≠ sizes.length := by
      intro he
      exact hdup (((List.dedup_sublist sizes).eq_of_length he) ▸ List.nodup_dedup sizes)
    have h5 : (ext.map Prod.fst).length = ext.length := List.length_map _ _
    rw [hfin, h2] at h1
    omega

theorem C3_dedup_roundtrip_witness :
    (dedupFold [(100, 100), (100, 100), (50, 50)]).dict.length < 3 ∧
    (dedupFold [(100, 100), (100, 100), (50, 50)]).refs.max? =
      some ((dedupFold [(100, 100), (100, 100), (50, 50)]).dict.length - 1) := by
  have h := C3_dedup_roundtrip [(100, 100), (100, 100), (50, 50)]
  exact ⟨h.2.2.2.2.2.2.2.1 (by decide), h.2.2.2.2.2.2.1 (by decide)⟩

/-!
### Command strings and concat-list order
-/

def digitChar (d : ℕ) : Char := Char.ofNat (48 + d)

/-- Decimal digits of `n`, most significant first (fuel-based so that it
kernel-reduces; the fuel `n + 1` always suffices). -/
def natCharsAux : ℕ → ℕ → List Char
  | 0, _ => []
  | fuel + 1, n =>
    if n < 10 then [digitChar n]
    else natCharsAux fuel (n / 10) ++ [digitChar (n % 10)]

def natChars (n : ℕ) : List Char := natCharsAux (n + 1) n

/-- Decimal rendering of a natural, as a Python f-string renders an int. -/
def natStr (n : ℕ) : String := String.mk (natChars n)

theorem digitChar_isDigit (d : ℕ) (h : d < 10) : (digitChar d).isDigit := by
  interval_cases d <;> decide

theorem natCharsAux_digits : ∀ (fuel n : ℕ), ∀ c ∈ natCharsAux fuel n, c.isDigit := by
  intro fuel
  induction fuel with
  | zero =>
    intro n c hc
    simp [natCharsAux] at hc
  | succ fuel ih =>
    intro n c hc
    rw [natCharsAux] at hc
    by_cases h : n < 10
    · rw [if_pos h, List.mem_singleton] at hc
      subst hc
      exact digitChar_isDigit n h
    · rw [if_neg h] at hc
      rcases List.mem_append.1 hc with h1 | h1
      · exact ih (n / 10) c h1
      · rw [List.mem_singleton] at h1
        subst h1
        exact digitChar_isDigit _ (Nat.mod_lt _ (by omega))

theorem natChars_digits (n : ℕ) : ∀ c ∈ natChars n, c.isDigit :=
  natCharsAux_digits (n + 1) n

/-- The ffmpeg argument string built by `createWebms` (source line 204),
the sequential per-frame encoder: it passes `-pix_fmt yuva420p`. -/
def createWebmsCmd (fps i : ℕ) : List Char :=
  "-framerate ".data ++ natChars fps ++
  " -f image2 -i temp/frame-".data ++ natChars i ++
  ".png -c:v libvpx-vp9 -pix_fmt yuva420p temp/frame-".data ++ natChars i ++
  ".webm".data

/-- The ffmpeg argument string built by `processSingleWebm` (source line
211), the per-worker encoder used by the parallel path: no `-pix_fmt`
flag at all. -/
def processSingleWebmCmd (fps i : ℕ) : List Char :=
  "-framerate ".data ++ natChars fps ++
  " -f image2 -i temp/frame-".data ++ natChars i ++
  ".png -c:v libvpx-vp9 temp/frame-".data ++ natChars i ++
  ".webm".data

theorem underscore_not_in_single (fps i : ℕ) : '_' ∉ processSingleWebmCmd fps i := by
  intro h
  rw [processSingleWebmCmd] at h
  rcases List.mem_append.1 h with h | h
  · rcases List.mem_append.1 h with h | h
    · rcases List.mem_append.1 h with h | h
      · rcases List.mem_append.1 h with h | h
        · rcases List.mem_append.1 h with h | h
          · rcases List.mem_append.1 h with h | h
            · exact absurd h (by decide)
            · exact absurd (natChars_digits fps '_' h) (by decide)
          · exact absurd h (by decide)
        · exact absurd (natChars_digits i '_' h) (by decide)
      · exact absurd h (by decide)
    · exact absurd (natChars_digits i '_' h) (by decide)
  · exact absurd h (by decide)

/-- C7 (code divergence): for every frame index and frame rate, the
sequential encoder's command contains the alpha-preserving
`-pix_fmt yuva420p`, the parallel encoder's command contains no such
flag, and the two commands differ — the two execution modes do not invoke
the external encode with the same pixel-format parameters. -/
theorem C7_pix_fmt_divergence (fps i : ℕ) :
    ("-pix_fmt yuva420p".data <:+: createWebmsCmd fps i) ∧
    ¬ ("-pix_fmt yuva420p".data <:+: processSingleWebmCmd fps i) ∧
    createWebmsCmd fps i ≠ processSingleWebmCmd fps i := by
  have hsplit : ".png -c:v libvpx-vp9 -pix_fmt yuva420p temp/frame-".data
      = ".png -c:v libvpx-vp9 ".data ++ "-pix_fmt yuva420p".data
        ++ " temp/frame-".data := by decide
  have hpos : "-pix_fmt yuva420p".data <:+: createWebmsCmd fps i := by
    refine ⟨"-framerate ".data ++ natChars fps ++ " -f image2 -i temp/frame-".data
      ++ natChars i ++ ".png -c:v libvpx-vp9 ".data,
      " temp/frame-".data ++ natChars i ++ ".webm".data, ?_⟩
    rw [createWebmsCmd, hsplit]
    simp [List.append_assoc]
  refine ⟨hpos, ?_, ?_⟩
  · intro h
    exact underscore_not_in_single fps i (h.subset (by decide))
  · intro he
    rw [he] at hpos
    exact underscore_not_in_single fps i (hpos.subset (by decide))

/-- One line of `temp/concat.txt` as written by `makeTransparentImages`
(source line 86) and by `createWebmsFast` (source line 222):
`file frame-{i}.webm`. -/
def concatLine (i : ℕ) : String := "file frame-" ++ natStr i ++ ".webm"

/-- One line as written in real-video slow mode by `createWebms` (source
line 207): the path carries its `temp/` prefix there. -/
def concatLineSlow (i : ℕ) : String := "file temp/frame-" ++ natStr i ++ ".webm"

/-- The concat-list write loop of `makeTransparentImages` (source lines
84-86): one appended line per reference, in reference order. -/
def writeTransparentConcat (refs : List ℕ) (file : List String) : List String :=
  refs.foldl (fun f i => f ++ [concatLine i]) file

/-- The concat-list writes of `createWebms` (source lines 199-207, with
`write=True`): one line per index `0..count`, ascending, interleaved with
the sequential encodes. -/
def createWebmsConcat (count : ℕ) (write : Bool) (file : List String) : List String :=
  if write then
    (List.range (count + 1)).foldl (fun f i => f ++ [concatLineSlow i]) file
  else file

/-- The concat-list writes of `createWebmsFast` (source lines 214-222,
with `write=True`): the worker pool first runs all encodes
(`completionOrder` records the order in which workers finished), then a
separate single-threaded loop writes one line per index `0..count`,
ascending. -/
def createWebmsFastConcat (count : ℕ) (completionOrder : List ℕ) (write : Bool)
    (file : List String) : List String :=
  if write then
    (List.range (count + 1)).foldl (fun f i => f ++ [concatLine i]) file
  else file

theorem foldl_append_map (g : ℕ → String) :
    ∀ (l : List ℕ) (acc : List String),
      l.foldl (fun f i => f ++ [g i]) acc = acc ++ l.map g := by
  intro l
  induction l with
  | nil =>
    intro acc
    simp
  | cons x xs ih =>
    intro acc
    rw [List.foldl_cons, List.map_cons, ih]
    simp

/-- C4: the transparent-mode concat list is exactly the reference
sequence rendered in order (one line per plan position); both real-video
writers emit the identity index sequence `0..count` ascending; the
parallel path's list does not depend on the order in which encodes
completed; and the `[0,1,0,2]` reference example yields exactly those
lines in that order. -/
theorem C4_concat_order (refs : List ℕ) (count : ℕ) (o1 o2 : List ℕ) (w : Bool) :
    writeTransparentConcat refs [] = refs.map concatLine ∧
    (writeTransparentConcat refs []).length = refs.length ∧
    createWebmsConcat count true [] = (List.range (count + 1)).map concatLineSlow ∧
    createWebmsFastConcat count o1 true [] = (List.range (count + 1)).map concatLine ∧
    createWebmsFastConcat count o1 w [] = createWebmsFastConcat count o2 w [] ∧
    writeTransparentConcat [0, 1, 0, 2] [] =
      ["file frame-0.webm", "file frame-1.webm", "file frame-0.webm",
       "file frame-2.webm"] := by
  refine ⟨?_, ?_, ?_, ?_, rfl, by decide⟩
  · rw [writeTransparentConcat, foldl_append_map]
    simp
  · rw [writeTransparentConcat, foldl_append_map]
    simp
  · rw [createWebmsConcat, if_pos rfl, foldl_append_map]
    simp
  · rw [createWebmsFastConcat, if_pos rfl, foldl_append_map]
    simp

/-!
### Argument parsing (`main`) and output path (`getOutput` / `setAudio`)
-/

def hexDigit (n : ℕ) : Char := if n < 10 then Char.ofNat (48 + n) else Char.ofNat (87 + n)

def hex2 (n : ℕ) : List Char := [hexDigit (n / 16 % 16), hexDigit (n % 16)]

def hex4 (n : ℕ) : List Char :=
  [hexDigit (n / 4096 % 16), hexDigit (n / 256 % 16), hexDigit (n / 16 % 16),
   hexDigit (n % 16)]

def hex8 (n : ℕ) : List Char := hex4 (n / 65536) ++ hex4 (n % 65536)

/-- The quote character CPython `repr`/`ascii` picks for a string: the
apostrophe (code 39), unless the string contains an apostrophe but no
double quote (code 34), in which case the double quote. -/
def asciiQuote (cs : List Char) : Char :=
  if cs.contains (Char.ofNat 39) && !(cs.contains (Char.ofNat 34)) then Char.ofNat 34
  else Char.ofNat 39

/-- CPython escaping of one character inside an `ascii()` repr with quote
character `q`: backslash-escape the quote and backslash, short escapes
for tab/newline/return, `\xNN`/`\uNNNN`/`\UNNNNNNNN` for other
non-printable or non-ASCII characters. -/
def asciiEscChar (q : Char) (c : Char) : List Char :=
  if c = '\\' ∨ c = q then ['\\', c]
  else if c = '\t' then ['\\', 't']
  else if c = '\n' then ['\\', 'n']
  else if c = '\r' then ['\\', 'r']
  else if c.toNat < 32 ∨ c.toNat = 127 then '\\' :: 'x' :: hex2 c.toNat
  else if c.toNat < 127 then [c]
  else if c.toNat < 256 then '\\' :: 'x' :: hex2 c.toNat
  else if c.toNat < 65536 then '\\' :: 'u' :: hex4 c.toNat
  else '\\' :: 'U' :: hex8 c.toNat

/-- CPython `ascii(s)`: the quoted, escaped repr of the string.
`argparse` applies this function to the positional input path (source
line 30, `type=ascii`), so `args.input` is the repr, quotes included. -/
def pyAscii (s : String) : String :=
  String.mk (asciiQuote s.data ::
    (s.data.flatMap (asciiEscChar (asciiQuote s.data)) ++ [asciiQuote s.data]))

/-- The input-file check of `main` (source line 43): `re.search` with
pattern `\.(mp4|webm)$` succeeds exactly when the path ends in `.mp4` or
`.webm`. -/
def validVideoName (s : String) : Bool :=
  ".mp4".data.isSuffixOf s.data || ".webm".data.isSuffixOf s.data

/-- The real-video branch of `main` (source lines 42-46): the parsed
input (already transformed by `ascii`) must pass the extension check,
else `sys.exit("No valid input file.")`. -/
def mainRealVideoCheck (input : String) : Except PyErr Unit :=
  let inputFilePath := pyAscii input
  if validVideoName inputFilePath then .ok ()
  else .error (.exitMsg "No valid input file.")

theorem pyAscii_getLast (s : String) :
    (pyAscii s).data.getLast? = some (asciiQuote s.data) := by
  show (asciiQuote s.data ::
      (s.data.flatMap (asciiEscChar (asciiQuote s.data)) ++ [asciiQuote s.data])).getLast?
    = some (asciiQuote s.data)
  rw [← List.cons_append, List.getLast?_concat]

theorem asciiQuote_cases (cs : List Char) :
    asciiQuote cs = Char.ofNat 34 ∨ asciiQuote cs = Char.ofNat 39 := by
  rw [asciiQuote]
  by_cases h : (cs.contains (Char.ofNat 39) && !(cs.contains (Char.ofNat 34))) = true
  · rw [if_pos h]
    exact Or.inl rfl
  · rw [if_neg h]
    exact Or.inr rfl

theorem suffix_getLast {l target : List Char} {c : Char}
    (h : target <:+ l) (hlast : target.getLast? = some c) :
    l.getLast? = some c := by
  obtain ⟨pre, rfl⟩ := h
  rw [List.getLast?_append, hlast]
  rfl

/-- C9: argparse's `type=ascii` replaces the given input path by its
quoted Python repr, whose last character is always a quote character, so
the `\.(mp4|webm)$` validation can never match and the real-video branch
always exits with the "No valid input file." diagnostic, for every input
path, before any video processing begins. -/
theorem C9_ascii_input_always_rejected (s : String) :
    validVideoName (pyAscii s) = false ∧
    mainRealVideoCheck s = .error (.exitMsg "No valid input file.") := by
  have hlast := pyAscii_getLast s
  have hq := asciiQuote_cases s.data
  have hv : validVideoName (pyAscii s) = false := by
    rw [validVideoName]
    have h1 : ".mp4".data.isSuffixOf (pyAscii s).data = false := by
      by_contra hne
      rw [Bool.not_eq_false, List.isSuffixOf_iff_suffix] at hne
      have hl4 := suffix_getLast hne (by decide : (".mp4".data).getLast? = some '4')
      rw [hlast] at hl4
      rcases hq with hq | hq <;>
        (rw [hq] at hl4; exact absurd (Option.some.inj hl4) (by decide))
    have h2 : ".webm".data.isSuffixOf (pyAscii s).data = false := by
      by_contra hne
      rw [Bool.not_eq_false, List.isSuffixOf_iff_suffix] at hne
      have hlm := suffix_getLast hne (by decide : (".webm".data).getLast? = some 'm')
      rw [hlast] at hlm
      rcases hq with hq | hq <;>
        (rw [hq] at hlm; exact absurd (Option.some.inj hlm) (by decide))
    rw [h1, h2]
    rfl
  refine ⟨hv, ?_⟩
  rw [mainRealVideoCheck]
  simp only [hv]
  rfl

/-- Python `video.replace(".mp4", "_resized.webm")` (source line 240):
replace every non-overlapping occurrence, scanning left to right
(fuel-based so that it kernel-reduces; `fuel = length` always
suffices). -/
def replMp4Aux : ℕ → List Char → List Char
  | 0, cs => cs
  | _ + 1, [] => []
  | fuel + 1, c :: cs =>
    if ".mp4".data.isPrefixOf (c :: cs) then
      "_resized.webm".data ++ replMp4Aux fuel (cs.drop 3)
    else c :: replMp4Aux fuel cs

/-- `getOutput` (source lines 239-240). -/
def getOutput (video : String) : String :=
  String.mk (replMp4Aux video.data.length video.data)

/-- The mux command of `setAudio` (source line 236): the output path of
the final artifact is `getOutput video`. -/
def setAudioCmd (video : String) : String :=
  "-i temp/out.webm -i temp/audio.wav -map 0:V:0 -map 1:a:0 -c:v copy -c:a libopus -b:a 160k -f webm "
    ++ getOutput video

theorem replMp4Aux_id (fuel : ℕ) :
    ∀ cs : List Char, ¬ (".mp4".data <:+: cs) → replMp4Aux fuel cs = cs := by
  induction fuel with
  | zero =>
    intro cs _
    rfl
  | succ fuel ih =>
    intro cs hinf
    cases cs with
    | nil => rfl
    | cons c cs' =>
      rw [replMp4Aux]
      rw [if_neg ?hpre]
      case hpre =>
        intro hp
        rw [List.isPrefixOf_iff_prefix] at hp
        exact hinf hp.isInfix
      congr 1
      exact ih cs' (fun hc => hinf (hc.trans (List.suffix_cons c cs').isInfix))

/-- C10: a path that does not contain the substring ".mp4" is returned
unchanged by `getOutput`, so `setAudio` muxes the final artifact onto the
input file's own path (overwriting the input — in particular for every
`.webm` input); a path containing ".mp4" receives the `_resized.webm`
replacement. -/
theorem C10_output_overwrites_input (s : String)
    (h : ¬ (".mp4".data <:+: s.data)) :
    getOutput s = s ∧
    setAudioCmd s =
      "-i temp/out.webm -i temp/audio.wav -map 0:V:0 -map 1:a:0 -c:v copy -c:a libopus -b:a 160k -f webm "
        ++ s ∧
    getOutput "video.mp4" = "video_resized.webm" ∧
    getOutput "video.webm" = "video.webm" := by
  have h1 : getOutput s = s := by
    rw [getOutput, replMp4Aux_id s.data.length s.data h]
  refine ⟨h1, ?_, by decide, by decide⟩
  rw [setAudioCmd, h1]

theorem C10_output_overwrites_input_witness :
    getOutput "input.webm" = "input.webm" ∧
    setAudioCmd "input.webm" =
      "-i temp/out.webm -i temp/audio.wav -map 0:V:0 -map 1:a:0 -c:v copy -c:a libopus -b:a 160k -f webm "
        ++ "input.webm" := by
  have h := C10_output_overwrites_input "input.webm" (by decide)
  exact ⟨h.1, h.2.1⟩

/-!
### Instruction parsing (`readInstructions`) and run cleanup (`safeExit`)
-/

/-- A JSON value, as far as the instruction parser inspects it. -/
inductive JVal where
  | num (q : ℚ)
  | str (s : String)
  | other
deriving DecidableEq

/-- The `size` object of a keyframe: every field may be absent. -/
structure SizeJson where
  scale : Option JVal
  wScale : Option JVal
  hScale : Option JVal
  width : Option JVal
  height : Option JVal
deriving DecidableEq

/-- One entry of the `keyframes` list: `time` and `size` may be absent. -/
structure KeyframeJson where
  time : Option JVal
  size : Option SizeJson
deriving DecidableEq

/-- `s.replace('.', '', 1)`: drop the first dot, if any. -/
def removeFirstDot : List Char → List Char
  | [] => []
  | c :: cs => if c = '.' then cs else c :: removeFirstDot cs

/-- Python `str.isdigit` (ASCII fragment): nonempty and all digits. -/
def isDigitStr (cs : List Char) : Bool := !cs.isEmpty && cs.all Char.isDigit

/-- Resolution and validation of a keyframe `time` (source lines
141-145): substitute the media duration for the sentinel `"end"`, then
require `str(time).replace('.','',1).isdigit()`.  For a JSON number that
string test is modelled as nonnegativity (exact for numbers whose `str`
is a plain decimal); a digit-like string passes the test and is kept as
a string key, exactly as the source stores it. -/
def resolveTime (tv : JVal) (duration : ℚ) : Except PyErr (ℚ ⊕ String) :=
  match tv with
  | .num q => if qle 0 q then pure (.inl q) else throw (.exitMsg "invalid time")
  | .str s =>
      if s = "end" then
        if qle 0 duration then pure (.inl duration)
        else throw (.exitMsg "invalid time")
      else if isDigitStr (removeFirstDot s.data) then pure (.inr s)
      else throw (.exitMsg "invalid time")
  | .other => throw (.exitMsg "invalid time")

/-- Python `float(v)` inside the size try-block: only numbers convert in
the modelled fragment; a failing conversion lands in the `except` clause,
`sys.exit("Invalid size for keyframe")`. -/
def jvalFloat : JVal → Except PyErr ℚ
  | .num q => pure q
  | _ => throw (.exitMsg "Invalid size for keyframe")

/-- Python `int(v)`: truncation toward zero for numbers, else the same
`except` clause. -/
def jvalInt : JVal → Except PyErr ℤ
  | .num q => pure (truncQ q)
  | _ => throw (.exitMsg "Invalid size for keyframe")

/-- Size resolution (source lines 149-164): `scale`, then `wScale` and
`hScale`, then absolute `width`/`height`, each overwriting the previous
value; a dimension the specification leaves unset stays `none` — the
source has no check that both dimensions resolved. -/
def resolveSize (size : SizeJson) (width height : ℤ) :
    Except PyErr (Option ℤ × Option ℤ) := do
  let (w1, h1) ← (match size.scale with
    | some v => do
        let f ← jvalFloat v
        pure (some (truncQ (qmul (width : ℚ) f)), some (truncQ (qmul (height : ℚ) f)))
    | none => pure ((none : Option ℤ), (none : Option ℤ)))
  let w2 ← (match size.wScale with
    | some v => do
        let f ← jvalFloat v
        pure (some (truncQ (qmul (width : ℚ) f)))
    | none => pure w1)
  let h2 ← (match size.hScale with
    | some v => do
        let f ← jvalFloat v
        pure (some (truncQ (qmul (height : ℚ) f)))
    | none => pure h1)
  let w3 ← (match size.width with
    | some v => do
        let z ← jvalInt v
        pure (some z)
    | none => pure w2)
  let h3 ← (match size.height with
    | some v => do
        let z ← jvalInt v
        pure (some z)
    | none => pure h2)
  pure (w3, h3)

/-- Insertion into an insertion-ordered mapping: overwriting an existing
key keeps its original position, as a Python dict does. -/
def dictInsert {α β : Type} [DecidableEq α] :
    List (α × β) → α → β → List (α × β)
  | [], k, v => [(k, v)]
  | (k', v') :: rest, k, v =>
      if k = k' then (k, v) :: rest else (k', v') :: dictInsert rest k v

/-- `readInstructions` (source lines 129-166).  `fileExists` models the
`os.path.exists` check; `keyframes = none` models a document without a
`"keyframes"` key.  Note that source line 146 checks `"time" in kf` a
second time where its message says size, so an absent `size` reaches
`kf["size"]` and raises an uncaught `KeyError` instead of the intended
exit. -/
def readInstructions (fileExists : Bool) (keyframes : Option (List KeyframeJson))
    (width height : ℤ) (duration : ℚ) :
    Except PyErr (List ((ℚ ⊕ String) × (Option ℤ × Option ℤ))) := do
  if !fileExists then
    throw (.exitMsg "No instruction!")
  match keyframes with
  | none => throw (.exitMsg "No keyframe data")
  | some kfs =>
    kfs.foldlM (fun info kf => do
      match kf.time with
      | none => throw (.exitMsg "No time for keyframe")
      | some tv => do
        let t ← resolveTime tv duration
        if kf.time.isNone then
          throw (.exitMsg "No size for keyframe")
        match kf.size with
        | none => throw (.keyError "size")
        | some sz => do
          let wh ← resolveSize sz width height
          pure (dictInsert info t wh)) []

/-- The `safeExit` context manager (source lines 14-25): `__exit__`
suppresses only `KeyboardInterrupt` (and `onExit` is never supplied at
the two use sites, lines 53 and 99); any other exception — including the
`SystemExit` raised by `sys.exit` — propagates out of the `with`
block. -/
def withSafeExit {α : Type} (body : Except PyErr α) : Except PyErr (Option α) :=
  match body with
  | .ok a => .ok (some a)
  | .error .keyboardInterrupt => .ok none
  | .error e => .error e

/-- What a run leaves behind: whether the `cleanup()` call placed after
the `with` block (source lines 65 and 113) was reached, and how the
process terminated. -/
structure RunResult where
  cleanupRan : Bool
  outcome : Except PyErr Unit
deriving DecidableEq

/-- The control flow of `makeTransparentVideo` / `processVideo` around
`with safeExit():`: `cleanup()` runs only when the block exits normally
(or a `KeyboardInterrupt` was suppressed); a propagating exception ends
the process before the `cleanup()` line. -/
def runPipeline {α : Type} (body : Except PyErr α) : RunResult :=
  match withSafeExit body with
  | .ok _ => ⟨true, .ok ()⟩
  | .error e => ⟨false, .error e⟩

/-- A stored table entry is usable by `getInterpolatedSize` only when its
time resolved to a number and both dimensions are set; a string key or an
unset (`None`) dimension makes the comparison/arithmetic in
`getInterpolatedSize` raise `TypeError`. -/
def entryOfStored : (ℚ ⊕ String) × (Option ℤ × Option ℤ) → Except PyErr Kf
  | (.inl t, (some w, some h)) => pure (t, w, h)
  | _ => throw .typeError

/-- The body of `makeTransparentVideo` inside `with safeExit():` (source
lines 50-63): `frameCount = ceil(duration * fps * loop)`, read the
instructions, generate the images.  The remaining steps (encode, concat,
move) only shell out and cannot fail in the modelled fragment. -/
def transparentBody (fileExists : Bool) (keyframes : Option (List KeyframeJson))
    (width height : ℤ) (duration fps : ℚ) (loop : ℕ) : Except PyErr ℕ := do
  let frameCount : ℕ := (qceil (qmul (qmul duration fps) ((loop : ℕ) : ℚ))).toNat
  let stored ← readInstructions fileExists keyframes width height duration
  let table ← stored.mapM entryOfStored
  let r ← makeTransparentImages table frameCount fps duration
  pure r.2

/-- The full transparent-mode run (source lines 50-66). -/
def makeTransparentVideoRun (fileExists : Bool) (keyframes : Option (List KeyframeJson))
    (width height : ℤ) (duration fps : ℚ) (loop : ℕ) : RunResult :=
  runPipeline (transparentBody fileExists keyframes width height duration fps loop)

/-- C5 (code bug): a keyframe carrying a `time` but no `size` slips past
the mistyped presence check (source line 146 re-tests `"time" in kf`
though its message says size) and crashes with an uncaught
`KeyError('size')` instead of an explicit `InvalidInstructions` exit;
and a size specification that resolves only one dimension is accepted,
storing a keyframe with the other dimension unset.  The explicit-error
cases that do work as claimed are evaluated alongside: absent
instruction file, absent keyframe list, keyframe without a time, and a
negative time. -/
theorem C5_missing_size_keyerror :
    readInstructions true (some [⟨some (.num 0), none⟩]) 500 500 10 =
      .error (.keyError "size") ∧
    readInstructions true
        (some [⟨some (.num 0), some ⟨none, none, none, some (.num 100), none⟩⟩])
        500 500 10 =
      .ok [(.inl 0, (some 100, none))] ∧
    readInstructions false none 500 500 10 = .error (.exitMsg "No instruction!") ∧
    readInstructions true none 500 500 10 = .error (.exitMsg "No keyframe data") ∧
    readInstructions true (some [⟨none, some ⟨none, none, none, none, none⟩⟩])
        500 500 10 =
      .error (.exitMsg "No time for keyframe") ∧
    readInstructions true
        (some [⟨some (.num (((-1 : ℤ)) : ℚ)),
          some ⟨none, none, none, some (.num 100), some (.num 100)⟩⟩])
        500 500 10 =
      .error (.exitMsg "invalid time") := by
  refine ⟨by decide, by decide, by decide, by decide, by decide, by decide⟩

/-- C6 (counterexample): a realizable fatal-error run — transparent mode
with a single-keyframe instruction file (`duration=1, fps=1, loop=1`) —
terminates via `sys.exit("Could not interpolate")`, and the staging
directory is NOT removed: the `SystemExit` propagates through
`safeExit.__exit__` (which only suppresses `KeyboardInterrupt`), so the
`cleanup()` call after the `with` block is never reached. -/
theorem C6_counterexample :
    makeTransparentVideoRun true
        (some [⟨some (.num 0), some ⟨none, none, none, some (.num 100), some (.num 100)⟩⟩])
        500 500 1 1 1 =
      ⟨false, .error (.exitMsg "Could not interpolate")⟩ := by
  decide

/-- C6 (amended): the staging cleanup after the `with safeExit():` block
runs exactly when the run body succeeds or raises `KeyboardInterrupt`
(which `safeExit` suppresses); on every `sys.exit` path and every other
uncaught exception the process terminates without removing the staging
directory (it is only removed by `prepare()` at the start of the next
run). -/
theorem C6_cleanup_iff (body : Except PyErr Unit) :
    ((runPipeline body).cleanupRan = true ↔
      body = .ok () ∨ body = .error .keyboardInterrupt) ∧
    (∀ msg, body = .error (.exitMsg msg) →
      runPipeline body = ⟨false, .error (.exitMsg msg)⟩) := by
  constructor
  · constructor
    · intro h
      match body with
      | .ok () => exact Or.inl rfl
      | .error .keyboardInterrupt => exact Or.inr rfl
      | .error (.exitMsg m) => exact Bool.noConfusion h
      | .error (.keyError k) => exact Bool.noConfusion h
      | .error .typeError => exact Bool.noConfusion h
      | .error .valueError => exact Bool.noConfusion h
    · rintro (rfl | rfl) <;> rfl
  · rintro msg rfl
    rfl

theorem C6_cleanup_iff_witness :
    runPipeline (.error (.exitMsg "Could not interpolate") : Except PyErr Unit) =
      ⟨false, .error (.exitMsg "Could not interpolate")⟩ ∧
    (runPipeline (.ok () : Except PyErr Unit)).cleanupRan = true := by
  have h1 := (C6_cleanup_iff (.error (.exitMsg "Could not interpolate"))).2
    "Could not interpolate" rfl
  have h2 := (C6_cleanup_iff (.ok ())).1.2 (Or.inl rfl)
  exact ⟨h1, h2⟩

